import Mathlib

/-!
Verification of the term-salience engine in `src/analysis/find_most_salient.py`
(repository `crunes/steven-universe`).

The Python functions are shallowly embedded as Lean definitions:

* Python `str` values are Lean `String`s; the character-class tests of the
  regular expressions (`\w`, `[0-9]`) and `str.lower()` are modelled on the
  ASCII plane, where they agree with Lean's `Char.isAlphanum`, `Char.isDigit`
  and `Char.toLower`.
* Python `dict`s (which preserve insertion order) are association lists whose
  update operations touch the first matching key and append new keys at the
  end, exactly as dict assignment does.
* Python `int`/`float` arithmetic is modelled exactly over `ℚ` and `ℝ`
  (`math.log` becomes `Real.log`).
* Python's `sorted(items, key=lambda x: x[1], reverse=True)` is a stable sort
  that orders pairs by descending second component; it is embedded as
  `List.insertionSort` with the relation "second component is at least as
  large", which is extensionally that stable descending sort.
* A Python function that can raise is embedded with result type `Except PyErr`;
  the error value records which exception the interpreter would raise.
-/

/-- Exceptions the embedded code can raise, mirroring the Python exceptions
that the corresponding source lines would produce. -/
inductive PyErr where
  /-- `ZeroDivisionError`, raised by `/` when the denominator is zero. -/
  | zeroDivisionError : PyErr
  /-- `NameError: name '<name>' is not defined`. -/
  | nameError (name : String) : PyErr
  /-- `TypeError`, e.g. `str.join` applied to a non-string element. -/
  | typeError : PyErr
  deriving DecidableEq, Repr

/-! ## Tokenizer: `create_list_tokens` -/

/-- Character class of Python's regex `\w` on the ASCII plane:
alphanumeric characters and the underscore. -/
def pyIsWordChar (c : Char) : Bool := c.isAlphanum || c = '_'

/-- Python's `str.split()` (no separator): split on runs of whitespace and
never produce empty fragments.  Implemented on character lists; `cur` is the
reversed fragment currently being read. -/
def splitWsAux : List Char → List Char → List (List Char)
  | [], cur => if cur.isEmpty then [] else [cur.reverse]
  | c :: rest, cur =>
    if c.isWhitespace then
      if cur.isEmpty then splitWsAux rest [] else cur.reverse :: splitWsAux rest []
    else splitWsAux rest (c :: cur)

/-- The per-fragment cleaning done by the loop body of `create_list_tokens`:
`re.sub(r'[^\w\s]', '', token)` (keep word characters and whitespace), then
`re.sub(r'[0-9]', '', ...)` (drop decimal digits), then `.lower()`. -/
def cleanToken (token : List Char) : List Char :=
  ((token.filter (fun c => pyIsWordChar c || c.isWhitespace)).filter
    (fun c => !c.isDigit)).map Char.toLower

/-- Embedding of `create_list_tokens` (src/analysis/find_most_salient.py,
lines 17-37): split the document on whitespace, clean each fragment, and keep
the non-empty results in order. -/
def create_list_tokens (document : String) : List String :=
  ((splitWsAux document.data []).map (fun t => String.mk (cleanToken t))).filter
    (fun s => s != "")

/-! ## Token counts: `count_distinct_tokens` -/

/-- A Python dict mapping tokens to counts, as an insertion-ordered
association list. -/
abbrev TokenCounts := List (String × ℕ)

/-- One loop iteration of `count_distinct_tokens`: `token_counts[token] = 1`
when the key is absent (dicts append new keys at the end), else
`token_counts[token] += 1` (update in place at the first matching key). -/
def incrKey : TokenCounts → String → TokenCounts
  | [], t => [(t, 1)]
  | (k, v) :: rest, t => if k = t then (k, v + 1) :: rest else (k, v) :: incrKey rest t

/-- Embedding of `count_distinct_tokens` (lines 40-57).  The Python function
mutates `token_counts` in place and returns `None`; the embedding passes the
state explicitly and returns the updated mapping. -/
def count_distinct_tokens (list_of_tokens : List String) (token_counts : TokenCounts) :
    TokenCounts :=
  list_of_tokens.foldl incrKey token_counts

/-! ## Sorting: `sort_by_count` -/

/-- The ordering used by `sorted(..., key=lambda x: x[1], reverse=True)`:
pair `a` may come before pair `b` exactly when `b`'s value does not exceed
`a`'s. -/
def sndGe {α β : Type} [LinearOrder β] (a b : α × β) : Prop := b.2 ≤ a.2

instance {α β : Type} [LinearOrder β] : DecidableRel (@sndGe α β _) :=
  fun a b => inferInstanceAs (Decidable (b.2 ≤ a.2))

/-- Embedding of `sort_by_count` (lines 60-71) at its only call mode
(`reverse=True`): a stable sort of the dict's `(key, value)` items by
descending value. -/
def sort_by_count {α β : Type} [LinearOrder β] (token_counts : List (α × β)) :
    List (α × β) :=
  token_counts.insertionSort sndGe

/-! ## Term frequency: `calculate_tf` -/

/-- The maximum of the values of a token-count mapping (the spec's
`max(C.values())`), used to state what the head of the descending sort
computes. -/
def maxValue (token_counts : TokenCounts) : ℕ :=
  (token_counts.map Prod.snd).foldr max 0

/-- Embedding of `calculate_tf` (lines 74-92): `0` when the term is not a key
of the counts dict, otherwise the augmented frequency
`0.5 + 0.5 * (f_td / max_ftd)` where `max_ftd` is read off the head of the
descending sort of the dict items.  The guard precedes the sort, so an empty
dict never reaches the head access; the `headD` default is never returned. -/
def calculate_tf (term : String) (token_counts : TokenCounts) : ℚ :=
  if term ∉ token_counts.map Prod.fst then 0
  else
    let f_td : ℕ := ((token_counts.lookup term).getD 0)
    let max_ftd : ℕ := ((sort_by_count token_counts).headD ("", 0)).2
    0.5 + 0.5 * ((f_td : ℚ) / (max_ftd : ℚ))

/-! ## Corpus and inverse document frequency -/

/-- A corpus: a dict mapping a document identifier to its list of tokens,
as an insertion-ordered association list. -/
abbrev Corpus := List (String × List String)

/-- Embedding of `count_documents_with_term` (lines 95-111): the number of
documents of the corpus whose token list contains the term. -/
def count_documents_with_term (term : String) : Corpus → ℕ
  | [] => 0
  | p :: rest =>
    (if term ∈ p.2 then 1 else 0) + count_documents_with_term term rest

/-- The numeric value `math.log(len(corpus) / docs_with_term)` computed by
`calculate_idf` on its non-raising path. -/
noncomputable def idfVal (term : String) (corpus : Corpus) : ℝ :=
  Real.log ((corpus.length : ℝ) / (count_documents_with_term term corpus : ℝ))

/-- Embedding of `calculate_idf` (lines 114-126).  The source divides
`len(corpus) / docs_with_term` with no guard; when the document frequency is
zero (in particular for an empty corpus) Python raises `ZeroDivisionError`
before `math.log` is ever called. -/
noncomputable def calculate_idf (term : String) (corpus : Corpus) : Except PyErr ℝ :=
  let docs_with_term := count_documents_with_term term corpus
  if docs_with_term = 0 then .error .zeroDivisionError
  else .ok (Real.log ((corpus.length : ℝ) / (docs_with_term : ℝ)))

/-- The numeric value of `calculate_tfidf` on its non-raising path:
`tf * idf` for the token counts of the document. -/
noncomputable def tfidfVal (term : String) (document_tokens : List String)
    (corpus : Corpus) : ℝ :=
  (calculate_tf term (count_distinct_tokens document_tokens []) : ℝ) *
    idfVal term corpus

/-- Embedding of `calculate_tfidf` (lines 129-147): build the document's
token-count dict from an empty dict, compute `tf`, then `tf * idf`; the
`ZeroDivisionError` of `calculate_idf` propagates. -/
noncomputable def calculate_tfidf (term : String) (document_tokens : List String)
    (corpus : Corpus) : Except PyErr ℝ :=
  let token_frequency_map := count_distinct_tokens document_tokens []
  let tf := calculate_tf term token_frequency_map
  (calculate_idf term corpus).map (fun idf => (tf : ℝ) * idf)

/-! ## `build_dictionary` -/

/-- Loop of `build_dictionary` (lines 150-166) over the remaining tokens,
with `acc` the dict built so far: a token already present as a key is
skipped, otherwise its tf-idf is computed and the pair appended.  A raised
exception aborts the loop. -/
noncomputable def buildDictAux (document : List String) (corpus : Corpus) :
    List String → List (String × ℝ) → Except PyErr (List (String × ℝ))
  | [], acc => .ok acc
  | t :: ts, acc =>
    if (acc.lookup t).isSome then buildDictAux document corpus ts acc
    else
      match calculate_tfidf t document corpus with
      | .error e => .error e
      | .ok v => buildDictAux document corpus ts (acc ++ [(t, v)])

/-- Embedding of `build_dictionary` (lines 150-166): map each distinct token
of the document (first occurrences first) to its tf-idf value. -/
noncomputable def build_dictionary (document : List String) (corpus : Corpus) :
    Except PyErr (List (String × ℝ)) :=
  buildDictAux document corpus document []

/-- Non-raising mirror of `buildDictAux`, writing `tfidfVal` directly. -/
noncomputable def buildDictValAux (document : List String) (corpus : Corpus) :
    List String → List (String × ℝ) → List (String × ℝ)
  | [], acc => acc
  | t :: ts, acc =>
    if (acc.lookup t).isSome then buildDictValAux document corpus ts acc
    else buildDictValAux document corpus ts (acc ++ [(t, tfidfVal t document corpus)])

/-- Non-raising mirror of `build_dictionary`. -/
noncomputable def buildDictionaryVal (document : List String) (corpus : Corpus) :
    List (String × ℝ) :=
  buildDictValAux document corpus document []

/-! ## `find_most_salient` -/

/-- Loop of `find_most_salient` (lines 169-197) over the remaining corpus
entries, the full corpus staying fixed for the tf-idf computations: an empty
document contributes an empty term list; otherwise the distinct terms are
scored, stably sorted by descending score, and the first `k` term names are
kept.  A raised exception aborts the whole loop. -/
noncomputable def fmsGo (corpus : Corpus) (k : ℕ) :
    Corpus → Except PyErr (List (String × List String))
  | [] => .ok []
  | (doc_id, tokens) :: rest =>
    if tokens.isEmpty then
      (fmsGo corpus k rest).map (fun out => (doc_id, ([] : List String)) :: out)
    else
      match build_dictionary tokens corpus with
      | .error e => .error e
      | .ok dict =>
        (fmsGo corpus k rest).map
          (fun out => (doc_id, ((sort_by_count dict).take k).map Prod.fst) :: out)

/-- Embedding of `find_most_salient` (lines 169-197). -/
noncomputable def find_most_salient (corpus : Corpus) (k : ℕ) :
    Except PyErr (List (String × List String)) :=
  fmsGo corpus k corpus

/-- The per-document term list produced by `find_most_salient` on its
non-raising path. -/
noncomputable def salientTermsVal (corpus : Corpus) (k : ℕ) (tokens : List String) :
    List String :=
  if tokens.isEmpty then []
  else ((sort_by_count (buildDictionaryVal tokens corpus)).take k).map Prod.fst

/-- Non-raising mirror of `find_most_salient`. -/
noncomputable def findMostSalientVal (corpus : Corpus) (k : ℕ) :
    List (String × List String) :=
  corpus.map (fun p => (p.1, salientTermsVal corpus k p.2))

/-! ## Corpus builders over a tabular dataset -/

/-- One row of a pandas DataFrame: column name to cell, `none` modelling a
missing (`NaN`) cell. -/
abbrev Row := List (String × Option String)

/-- `row[col]`: the cell of a column, with a missing column read as a missing
value (the claims under study only exercise columns that exist). -/
def rowGet (r : Row) (col : String) : Option String :=
  ((r.lookup col).getD none)

/-- `corpus[id] = doc` when the key is new (appended at the end), and
`corpus[id].extend(doc)` when the key exists (the entry keeps its slot and
the tokens are appended), as in the loop of `build_simple_corpus`. -/
def extendKey : Corpus → String → List String → Corpus
  | [], id, doc => [(id, doc)]
  | (k, v) :: rest, id, doc =>
    if k = id then (k, v ++ doc) :: rest else (k, v) :: extendKey rest id doc

/-- Embedding of `build_simple_corpus` (lines 244-275).  When `filter_by` is
supplied the source immediately evaluates `limit_by`, a name that is defined
nowhere, so Python raises `NameError: name 'limit_by' is not defined`.
Otherwise: keep rows whose document cell is present, tokenize each row's
text, and fold the `(identifier, tokens)` pairs into a corpus in row order. -/
def build_simple_corpus (df : List Row) (index : String) (doc_col : String)
    (filter_by : Option (String × String) := none) : Except PyErr Corpus :=
  match filter_by with
  | some _ => .error (.nameError "limit_by")
  | none =>
    let kept := df.filter (fun r => (rowGet r doc_col).isSome)
    let rows := kept.map
      (fun r => ((rowGet r index).getD "", create_list_tokens ((rowGet r doc_col).getD "")))
    .ok (rows.foldl (fun corpus p => extendKey corpus p.1 p.2) [])

/-- First-occurrence deduplication, processed left to right: an element is
kept when it is in neither `seen` nor the already-kept part.  This is the
order in which `pandas.Series.unique` reports values and in which a dict
built by insertion lists its keys. -/
def foAux {α : Type} [DecidableEq α] (seen : List α) : List α → List α
  | [] => []
  | x :: xs => if x ∈ seen then foAux seen xs else x :: foAux (x :: seen) xs

/-- First occurrences of the elements of a list, in order. -/
def firstOccs {α : Type} [DecidableEq α] (l : List α) : List α := foAux [] l

/-- `trans_df.merge(ep_df, left_on='episode', right_on='title')`: the inner
join pairing every transcript row with every metadata row whose `title` cell
equals the row's `episode` cell (both present), concatenating the rows.
Left rows keep their order; each is matched against right rows in order. -/
def pdMerge (trans_df ep_df : List Row) : List Row :=
  trans_df.flatMap (fun t =>
    (ep_df.filter (fun e =>
      (rowGet t "episode").isSome && rowGet t "episode" == rowGet e "title")).map
      (fun e => t ++ e))

/-- The distinct cells of a column in first-occurrence order, as
`df.<col>.unique()` returns them. -/
def uniqueVals (df : List Row) (col : String) : List (Option String) :=
  firstOccs (df.map (fun r => rowGet r col))

/-- `', '.join(speaker)` where `speaker` is a string: `str.join` iterates the
CHARACTERS of its argument, so `"Ruby"` becomes `"R, u, b, y"`. -/
def commaJoinChars (s : String) : String :=
  String.intercalate ", " (s.data.map (fun c => String.mk [c]))

/-- The nested mapping `season → (episode → Document)` the comprehensive
corpus is meant to hold per speaker. -/
abbrev SeasonMap := List (String × Corpus)

/-- Embedding of `build_comprehensive_corpus` (lines 278-328).  The source
first builds `{', '.join(speaker): None for speaker in trans_df.speaker.unique()}`
(raising `TypeError` on a missing speaker cell, since `str.join` rejects it),
merges the two frames, and then, for every distinct season of the merged
frame, evaluates `build_simple_corpus(filtered, episode, quote)` — but
`episode` is a name defined nowhere, so the first loop iteration raises
`NameError: name 'episode' is not defined`.  Only when the merged frame has
no seasons at all (no loop iteration) does the function return, and then
every speaker is still mapped to `None`. -/
def build_comprehensive_corpus (trans_df ep_df : List Row) :
    Except PyErr (List (String × Option SeasonMap)) :=
  let speakerCells := uniqueVals trans_df "speaker"
  if speakerCells.any (fun c => c.isNone) then .error .typeError
  else
    let corpus0 := speakerCells.map
      (fun c => (commaJoinChars (c.getD ""), (none : Option SeasonMap)))
    let merged := pdMerge trans_df ep_df
    match uniqueVals merged "season" with
    | [] => .ok corpus0
    | _ :: _ => .error (.nameError "episode")

/-- ASCII punctuation: a printable ASCII character that is neither
alphanumeric nor the underscore (the spec's tokenizer contract counts the
underscore among the word characters that are kept, so it is a word
character here, not punctuation).  On the remaining characters this is
exactly Python's `string.punctuation`. -/
def isPunctuationChar (c : Char) : Bool :=
  33 ≤ c.toNat && c.toNat ≤ 126 && !c.isAlphanum && !(c = '_')

/-! ## Character-level lemmas -/

theorem char_toNat_ofNat (n : ℕ) (h : n.isValidChar) : (Char.ofNat n).toNat = n := by
  rw [Char.ofNat, dif_pos h]; rfl

theorem isUpper_iff_toNat (c : Char) :
    c.isUpper = true ↔ (65 ≤ c.toNat ∧ c.toNat ≤ 90) := by
  simp only [Char.isUpper, Bool.and_eq_true, decide_eq_true_eq, ge_iff_le,
    UInt32.le_def, BitVec.le_def]
  rfl

theorem isLower_iff_toNat (c : Char) :
    c.isLower = true ↔ (97 ≤ c.toNat ∧ c.toNat ≤ 122) := by
  simp only [Char.isLower, Bool.and_eq_true, decide_eq_true_eq, ge_iff_le,
    UInt32.le_def, BitVec.le_def]
  rfl

theorem isDigit_iff_toNat (c : Char) :
    c.isDigit = true ↔ (48 ≤ c.toNat ∧ c.toNat ≤ 57) := by
  simp only [Char.isDigit, Bool.and_eq_true, decide_eq_true_eq, ge_iff_le,
    UInt32.le_def, BitVec.le_def]
  rfl

theorem toLower_toNat (c : Char) :
    (Char.toLower c).toNat =
      if 65 ≤ c.toNat ∧ c.toNat ≤ 90 then c.toNat + 32 else c.toNat := by
  show (if c.toNat ≥ 65 ∧ c.toNat ≤ 90 then Char.ofNat (c.toNat + 32) else c).toNat = _
  by_cases h : 65 ≤ c.toNat ∧ c.toNat ≤ 90
  · rw [if_pos h, if_pos h, char_toNat_ofNat _ (Or.inl (by omega))]
  · rw [if_neg h, if_neg h]

theorem isUpper_toLower (c : Char) : (Char.toLower c).isUpper = false := by
  have h2 := toLower_toNat c
  by_cases h : (Char.toLower c).isUpper = true
  · exfalso
    have h3 := (isUpper_iff_toNat _).1 h
    by_cases hc : 65 ≤ c.toNat ∧ c.toNat ≤ 90
    · rw [if_pos hc] at h2; omega
    · rw [if_neg hc] at h2
      rw [h2] at h3
      exact hc h3
  · simpa using h

theorem isDigit_toLower (c : Char) (h : c.isDigit = false) :
    (Char.toLower c).isDigit = false := by
  have h2 := toLower_toNat c
  by_cases hd : (Char.toLower c).isDigit = true
  · exfalso
    have h3 := (isDigit_iff_toNat _).1 hd
    by_cases hc : 65 ≤ c.toNat ∧ c.toNat ≤ 90
    · rw [if_pos hc] at h2; omega
    · rw [if_neg hc] at h2
      rw [h2] at h3
      exact absurd ((isDigit_iff_toNat c).2 h3) (by simp [h])
  · simpa using hd

theorem whitespace_toNat (c : Char) (h : c.isWhitespace = true) :
    c.toNat = 32 ∨ c.toNat = 9 ∨ c.toNat = 13 ∨ c.toNat = 10 := by
  simp only [Char.isWhitespace, Bool.or_eq_true, decide_eq_true_eq] at h
  rcases h with ((h | h) | h) | h <;> subst h <;> simp

theorem underscore_toNat : ('_' : Char).toNat = 95 := rfl

theorem isPunct_false_of_small (c : Char) (h : c.toNat < 33) :
    isPunctuationChar c = false := by
  simp only [isPunctuationChar, Bool.and_eq_false_iff]
  left; left; left
  simpa using by omega

theorem isPunct_false_of_alnum (c : Char) (h : c.isAlphanum = true) :
    isPunctuationChar c = false := by
  simp [isPunctuationChar, h]

/-- Every character of a cleaned fragment is neither uppercase, nor a digit,
nor punctuation. -/
theorem cleanToken_char (token : List Char) (c : Char) (hc : c ∈ cleanToken token) :
    c.isUpper = false ∧ c.isDigit = false ∧ isPunctuationChar c = false := by
  simp only [cleanToken, List.mem_map, List.mem_filter, Bool.not_eq_eq_eq_not,
    Bool.not_true] at hc
  obtain ⟨c0, ⟨⟨hmem, hw⟩, hd⟩, rfl⟩ := hc
  refine ⟨isUpper_toLower c0, isDigit_toLower c0 hd, ?_⟩
  have hnat := toLower_toNat c0
  simp only [pyIsWordChar, Bool.or_eq_true, decide_eq_true_eq] at hw
  rcases hw with (halnum | heq) | hws
  · have halpha : c0.isAlpha = true := by
      simp only [Char.isAlphanum, Bool.or_eq_true, hd] at halnum
      simpa using halnum
    have hcases : c0.isUpper = true ∨ c0.isLower = true := by
      simpa [Char.isAlpha] using halpha
    rcases hcases with hup | hlo
    · have h1 := (isUpper_iff_toNat c0).1 hup
      rw [if_pos h1] at hnat
      have hl : (Char.toLower c0).isLower = true := (isLower_iff_toNat _).2 (by omega)
      exact isPunct_false_of_alnum _ (by simp [Char.isAlphanum, Char.isAlpha, hl])
    · have h1 := (isLower_iff_toNat c0).1 hlo
      rw [if_neg (by omega)] at hnat
      have hl : (Char.toLower c0).isLower = true := (isLower_iff_toNat _).2 (by omega)
      exact isPunct_false_of_alnum _ (by simp [Char.isAlphanum, Char.isAlpha, hl])
  · subst heq
    decide
  · have hws2 := whitespace_toNat c0 hws
    rw [if_neg (by omega)] at hnat
    exact isPunct_false_of_small _ (by omega)

/-- C4: for every input string, every token produced by `create_list_tokens`
is non-empty, lowercase (contains no uppercase character), contains no digit,
and contains no punctuation character; and
`create_list_tokens "Steven23!! says HI" = ["steven", "says", "hi"]`
(tokens appear in the order of the whitespace-delimited fragments that
produced them, as the example shows). -/
theorem create_list_tokens_wellformed :
    (∀ (document : String), ∀ t ∈ create_list_tokens document,
        t ≠ "" ∧ ∀ c ∈ t.data,
          c.isUpper = false ∧ c.isDigit = false ∧ isPunctuationChar c = false) ∧
    create_list_tokens "Steven23!! says HI" = ["steven", "says", "hi"] := by
  constructor
  · intro document t ht
    simp only [create_list_tokens, List.mem_filter, List.mem_map, ne_eq,
      bne_iff_ne] at ht
    obtain ⟨⟨frag, hfrag, rfl⟩, hne⟩ := ht
    exact ⟨hne, fun c hc => cleanToken_char frag c hc⟩
  · decide

/-- Witness for C4 at the concrete example: the token `"steven"` is produced
and satisfies the well-formedness properties. -/
theorem create_list_tokens_wellformed_witness :
    ("steven" ∈ create_list_tokens "Steven23!! says HI") ∧
      ("steven" ≠ "" ∧ ∀ c ∈ "steven".data,
        c.isUpper = false ∧ c.isDigit = false ∧ isPunctuationChar c = false) :=
  ⟨by decide, create_list_tokens_wellformed.1 "Steven23!! says HI" "steven" (by decide)⟩

/-! ## Lemmas about `count_distinct_tokens` -/

theorem lookup_cons {β : Type} (k : String) (v : β) (rest : List (String × β)) (t : String) :
    ((k, v) :: rest).lookup t = if t = k then some v else rest.lookup t := by
  by_cases h : t = k
  · simp [List.lookup, h]
  · have hb : (t == k) = false := beq_eq_false_iff_ne.2 h
    simp [List.lookup, hb, h]

theorem lookup_incrKey_self (m : TokenCounts) (t : String) :
    (incrKey m t).lookup t = some ((m.lookup t).getD 0 + 1) := by
  induction m with
  | nil => simp [incrKey, lookup_cons]
  | cons p rest ih =>
    obtain ⟨k, v⟩ := p
    by_cases h : k = t
    · subst h
      simp [incrKey, lookup_cons]
    · rw [incrKey, if_neg h, lookup_cons, lookup_cons, if_neg (Ne.symm h),
        if_neg (Ne.symm h), ih]

theorem lookup_incrKey_ne (m : TokenCounts) (t tq : String) (h : tq ≠ t) :
    (incrKey m t).lookup tq = m.lookup tq := by
  induction m with
  | nil => simp [incrKey, lookup_cons, h]
  | cons p rest ih =>
    obtain ⟨k, v⟩ := p
    by_cases hk : k = t
    · subst hk
      rw [incrKey, if_pos rfl, lookup_cons, lookup_cons, if_neg h, if_neg h]
    · rw [incrKey, if_neg hk, lookup_cons, lookup_cons, ih]

theorem count_distinct_tokens_lookup (tokens : List String) (m : TokenCounts) (t : String) :
    (count_distinct_tokens tokens m).lookup t =
      if t ∈ tokens then some ((m.lookup t).getD 0 + tokens.count t) else m.lookup t := by
  induction tokens generalizing m with
  | nil => simp [count_distinct_tokens]
  | cons tok toks ih =>
    have hstep : count_distinct_tokens (tok :: toks) m =
        count_distinct_tokens toks (incrKey m tok) := rfl
    rw [hstep, ih (incrKey m tok)]
    by_cases h : t = tok
    · subst h
      rw [if_pos (List.mem_cons_self t toks)]
      have hcount : (t :: toks).count t = toks.count t + 1 := by
        simp [List.count_cons]
      by_cases hmem : t ∈ toks
      · rw [if_pos hmem, lookup_incrKey_self, hcount]
        simp
        ring
      · rw [if_neg hmem, lookup_incrKey_self, hcount]
        have : toks.count t = 0 := List.count_eq_zero.2 hmem
        simp [this]
    · have hcount : (tok :: toks).count t = toks.count t := by
        simp only [List.count_cons, beq_iff_eq]
        simp [Ne.symm h]
      rw [lookup_incrKey_ne m tok t h, hcount]
      by_cases hmem : t ∈ toks
      · rw [if_pos hmem, if_pos (List.mem_cons_of_mem tok hmem)]
      · rw [if_neg hmem, if_neg (by simp [h, hmem])]

/-- C10: after `count_distinct_tokens` (which in Python returns `None` and
mutates the caller's dict; here the updated mapping is the return value),
the count for every token occurring in the list equals its previous count —
zero when absent — plus the number of occurrences in the list, and every key
for a token not occurring in the list is unchanged. -/
theorem count_distinct_tokens_frame :
    ∀ (tokens : List String) (m : TokenCounts) (t : String),
      (t ∈ tokens →
        (count_distinct_tokens tokens m).lookup t =
          some ((m.lookup t).getD 0 + tokens.count t)) ∧
      (t ∉ tokens →
        (count_distinct_tokens tokens m).lookup t = m.lookup t) := by
  intro tokens m t
  constructor
  · intro h
    rw [count_distinct_tokens_lookup, if_pos h]
  · intro h
    rw [count_distinct_tokens_lookup, if_neg h]

/-- Witness for C10: counting `["a", "b", "a"]` on top of the mapping
`{"a": 2, "c": 5}` updates the count of `"a"` to `2 + 2 = 4` and leaves the
key `"c"` untouched. -/
theorem count_distinct_tokens_frame_witness :
    ("a" ∈ ["a", "b", "a"] ∧
      (count_distinct_tokens ["a", "b", "a"] [("a", 2), ("c", 5)]).lookup "a" = some 4) ∧
    ("c" ∉ ["a", "b", "a"] ∧
      (count_distinct_tokens ["a", "b", "a"] [("a", 2), ("c", 5)]).lookup "c" = some 5) :=
  ⟨⟨by decide,
    by simpa using
      (count_distinct_tokens_frame ["a", "b", "a"] [("a", 2), ("c", 5)] "a").1 (by decide)⟩,
   ⟨by decide,
    by simpa using
      (count_distinct_tokens_frame ["a", "b", "a"] [("a", 2), ("c", 5)] "c").2 (by decide)⟩⟩

/-! ## Lemmas about `sort_by_count` -/

instance {α β : Type} [LinearOrder β] : IsTotal (α × β) sndGe :=
  ⟨fun a b => le_total b.2 a.2⟩

instance {α β : Type} [LinearOrder β] : IsTrans (α × β) sndGe :=
  ⟨fun _ _ _ h1 h2 => le_trans h2 h1⟩

theorem sort_by_count_perm {α β : Type} [LinearOrder β] (l : List (α × β)) :
    (sort_by_count l).Perm l :=
  List.perm_insertionSort sndGe l

theorem sort_by_count_sorted {α β : Type} [LinearOrder β] (l : List (α × β)) :
    (sort_by_count l).Pairwise (fun a b => b.2 ≤ a.2) :=
  List.sorted_insertionSort sndGe l

/-- Stability of the descending insertion sort: a pairwise relation `Q` of
the input list (for our use: "comes earlier in the dict") refines the
sortedness of the output at equal values. -/
theorem pairwise_orderedInsert_stable {α β : Type} [LinearOrder β]
    (Q : α × β → α × β → Prop) (x : α × β) (m : List (α × β))
    (hm : m.Pairwise (fun a b => b.2 ≤ a.2 ∧ (a.2 ≤ b.2 → Q a b)))
    (hx : ∀ y ∈ m, Q x y) :
    (List.orderedInsert sndGe x m).Pairwise
      (fun a b => b.2 ≤ a.2 ∧ (a.2 ≤ b.2 → Q a b)) := by
  induction m with
  | nil => simp [List.orderedInsert]
  | cons y ys ih =>
    rw [List.orderedInsert]
    by_cases h : sndGe x y
    · rw [if_pos h]
      rw [List.pairwise_cons]
      refine ⟨?_, hm⟩
      intro z hz
      rcases List.mem_cons.1 hz with rfl | hz2
      · exact ⟨h, fun _ => hx z (List.mem_cons_self _ _)⟩
      · have hyz := (List.pairwise_cons.1 hm).1 z hz2
        exact ⟨le_trans hyz.1 h, fun _ => hx z (List.mem_cons_of_mem _ hz2)⟩
    · rw [if_neg h]
      have hxy : x.2 < y.2 := lt_of_not_le h
      rw [List.pairwise_cons]
      constructor
      · intro z hz
        rcases (List.mem_orderedInsert sndGe).1 hz with rfl | hz2
        · exact ⟨le_of_lt hxy, fun h2 => absurd hxy (not_lt_of_le h2)⟩
        · exact (List.pairwise_cons.1 hm).1 z hz2
      · exact ih (List.pairwise_cons.1 hm).2
          (fun z hz => hx z (List.mem_cons_of_mem _ hz))

theorem sort_by_count_stable {α β : Type} [LinearOrder β]
    (Q : α × β → α × β → Prop) (l : List (α × β)) (hQ : l.Pairwise Q) :
    (sort_by_count l).Pairwise (fun a b => b.2 ≤ a.2 ∧ (a.2 ≤ b.2 → Q a b)) := by
  induction l with
  | nil => simp [sort_by_count, List.insertionSort]
  | cons x xs ih =>
    have hrw : sort_by_count (x :: xs) =
        List.orderedInsert sndGe x (sort_by_count xs) := rfl
    rw [hrw]
    refine pairwise_orderedInsert_stable Q x _ (ih (List.pairwise_cons.1 hQ).2) ?_
    intro y hy
    exact (List.pairwise_cons.1 hQ).1 y
      ((sort_by_count_perm xs).mem_iff.1 hy)

/-! ## The head of the descending sort is the maximum value -/

theorem le_foldr_max (vs : List ℕ) (v : ℕ) (hv : v ∈ vs) : v ≤ vs.foldr max 0 := by
  induction vs with
  | nil => cases hv
  | cons w ws ih =>
    rcases List.mem_cons.1 hv with rfl | h2
    · exact le_max_left _ _
    · exact le_trans (ih h2) (le_max_right _ _)

theorem foldr_max_le (vs : List ℕ) (m : ℕ) (h : ∀ v ∈ vs, v ≤ m) :
    vs.foldr max 0 ≤ m := by
  induction vs with
  | nil => exact Nat.zero_le m
  | cons w ws ih =>
    exact max_le (h w (List.mem_cons_self _ _))
      (ih (fun v hv => h v (List.mem_cons_of_mem _ hv)))

/-- For a non-empty counts dict, the value at the head of the descending sort
(the source's `sort_by_count(token_counts)[0][1]`) is `max(C.values())`. -/
theorem sorted_head_eq_maxValue (tc : TokenCounts) (h : tc ≠ []) :
    ((sort_by_count tc).headD ("", 0)).2 = maxValue tc := by
  have hperm := sort_by_count_perm tc
  have hsorted := sort_by_count_sorted tc
  have hne : sort_by_count tc ≠ [] := by
    intro hnil
    rw [hnil] at hperm
    exact h hperm.symm.eq_nil
  obtain ⟨h0, rest, hrw⟩ := List.exists_cons_of_ne_nil hne
  rw [hrw]
  simp only [List.headD_cons]
  have hmem0 : h0 ∈ tc := hperm.mem_iff.1 (hrw ▸ List.mem_cons_self _ _)
  have hub : ∀ v ∈ tc.map Prod.snd, v ≤ h0.2 := by
    intro v hv
    obtain ⟨p, hp, rfl⟩ := List.mem_map.1 hv
    have hps : p ∈ sort_by_count tc := hperm.mem_iff.2 hp
    rw [hrw] at hps
    rcases List.mem_cons.1 hps with rfl | hp2
    · exact le_refl _
    · exact (List.pairwise_cons.1 (hrw ▸ hsorted)).1 p hp2
  have hmemv : h0.2 ∈ tc.map Prod.snd := List.mem_map_of_mem Prod.snd hmem0
  exact le_antisymm
    (le_foldr_max _ _ hmemv)
    (foldr_max_le _ _ hub)

theorem lookup_isSome_iff {β : Type} (l : List (String × β)) (t : String) :
    (l.lookup t).isSome = true ↔ t ∈ l.map Prod.fst := by
  induction l with
  | nil => simp [List.lookup]
  | cons p rest ih =>
    obtain ⟨k, v⟩ := p
    rw [lookup_cons]
    by_cases h : t = k
    · simp [h]
    · simp [h, ih]

/-- `calculate_tf` on a term that is a key: the head of the descending sort
is the maximum count, so the result is the augmented-frequency formula. -/
theorem calculate_tf_lookup (term : String) (tc : TokenCounts) (cnt : ℕ)
    (hcnt : tc.lookup term = some cnt) :
    calculate_tf term tc = 0.5 + 0.5 * ((cnt : ℚ) / (maxValue tc : ℚ)) := by
  have hmem : term ∈ tc.map Prod.fst := (lookup_isSome_iff tc term).1 (by simp [hcnt])
  have hne : tc ≠ [] := by
    intro h
    subst h
    simp at hmem
  rw [calculate_tf, if_neg (by simpa using hmem)]
  show 0.5 + 0.5 * ((((tc.lookup term).getD 0 : ℕ) : ℚ) /
    ((((sort_by_count tc).headD ("", 0)).2 : ℕ) : ℚ)) = _
  rw [hcnt, sorted_head_eq_maxValue tc hne]
  rfl

/-- C1: `calculate_tf term C` returns `0` when `term` is not a key of `C`
(in particular, `0` for every term when `C` is empty — the guard precedes
the sort that computes the max, which is therefore never invoked), and
otherwise returns `0.5 + 0.5 * (C[term] / max(C.values()))`; for
`C = [("a", 3), ("b", 1)]` this gives `1`, `0.5 + 0.5 * (1/3)` and `0` for
the terms `"a"`, `"b"` and `"c"`. -/
theorem calculate_tf_spec :
    (∀ (term : String) (tc : TokenCounts),
        (term ∉ tc.map Prod.fst → calculate_tf term tc = 0) ∧
        (∀ cnt : ℕ, tc.lookup term = some cnt →
            calculate_tf term tc = 0.5 + 0.5 * ((cnt : ℚ) / (maxValue tc : ℚ)))) ∧
    (∀ term : String, calculate_tf term ([] : TokenCounts) = 0) ∧
    (calculate_tf "a" [("a", 3), ("b", 1)] = 1 ∧
      calculate_tf "b" [("a", 3), ("b", 1)] = 0.5 + 0.5 * (1 / 3) ∧
      calculate_tf "c" [("a", 3), ("b", 1)] = 0) := by
  refine ⟨fun term tc => ⟨fun h => ?_, fun cnt hcnt => calculate_tf_lookup term tc cnt hcnt⟩,
    fun term => ?_, ?_, ?_, ?_⟩
  · rw [calculate_tf, if_pos h]
  · rw [calculate_tf, if_pos (by simp)]
  · have h := calculate_tf_lookup "a" [("a", 3), ("b", 1)] 3 (by decide)
    have hm : maxValue [("a", 3), ("b", 1)] = 3 := by decide
    rw [h, hm]
    norm_num
  · have h := calculate_tf_lookup "b" [("a", 3), ("b", 1)] 1 (by decide)
    have hm : maxValue [("a", 3), ("b", 1)] = 3 := by decide
    rw [h, hm]
    norm_num
  · rw [calculate_tf, if_pos (by decide)]

/-- Witness for C1: the term `"b"` with count `1` in `{"a": 3, "b": 1}`
receives the augmented frequency computed from the maximum count. -/
theorem calculate_tf_spec_witness :
    (List.lookup "b" [("a", 3), ("b", 1)] = some 1) ∧
      calculate_tf "b" [("a", 3), ("b", 1)] =
        0.5 + 0.5 * ((1 : ℚ) / (maxValue [("a", 3), ("b", 1)] : ℚ)) :=
  ⟨by decide, (calculate_tf_spec.1 "b" [("a", 3), ("b", 1)]).2 1 (by decide)⟩

/-- C2: the claim says `calculate_idf` detects a zero document frequency
before dividing and fails with a distinct `TermNotInCorpusError`.  The code
has no such guard: `len(corpus) / docs_with_term` divides immediately, so a
term absent from every document — also over the empty corpus — raises the
generic arithmetic `ZeroDivisionError` instead.  No `TermNotInCorpusError`
exists anywhere in the source. -/
theorem calculate_idf_zero_df_raises_zero_division :
    calculate_idf "z" [("d1", ["a"])] = .error .zeroDivisionError ∧
      calculate_idf "z" ([] : Corpus) = .error .zeroDivisionError := by
  constructor
  · rfl
  · rfl

/-- C5: the claim says `build_simple_corpus` filters rows by the optional
`(column, value)` predicate when it is supplied.  The code's filter branch
reads `limit_by`, a name that is defined nowhere (the parameter is named
`filter_by`, as its own docstring records), so any call with a filter raises
`NameError: name 'limit_by' is not defined` before touching the data.  The
second conjunct documents the intended no-filter path, which does work:
missing-text rows are dropped, rows are tokenized in order, and tokens of a
repeated identifier are appended to the existing document. -/
theorem build_simple_corpus_filter_raises_name_error :
    build_simple_corpus
        [[("id", some "d1"), ("text", some "hi there")]] "id" "text"
        (some ("season", "1")) = .error (.nameError "limit_by") ∧
      build_simple_corpus
        [[("id", some "d1"), ("text", some "Hi hi")],
         [("id", some "d1"), ("text", none)],
         [("id", some "d1"), ("text", some "there You")],
         [("id", some "d2"), ("text", some "yo")]] "id" "text" none =
        .ok [("d1", ["hi", "hi", "there", "you"]), ("d2", ["yo"])] := by
  constructor
  · rfl
  · rfl

/-- C7: the claim says `build_comprehensive_corpus` returns the three-level
hierarchy speaker → season → episode → Document.  The function is unfinished:
as soon as the joined frame has one distinct season, the loop body evaluates
`build_simple_corpus(filtered, episode, quote)` where `episode` (like `quote`
and, later, `speaker`) is a name defined nowhere, raising
`NameError: name 'episode' is not defined`.  Even when the join produces no
season at all, the returned dict maps each `', '.join(speaker)` — a
character-wise join, `"Steven"` becoming `"S, t, e, v, e, n"` — to `None`,
not to a season mapping. -/
theorem build_comprehensive_corpus_raises_name_error :
    build_comprehensive_corpus
        [[("episode", some "Gem Glow"), ("speaker", some "Steven"),
          ("quote", some "hi")]]
        [[("title", some "Gem Glow"), ("season", some "Season 1")]] =
      .error (.nameError "episode") ∧
      build_comprehensive_corpus
        [[("episode", some "Lost Episode"), ("speaker", some "Steven"),
          ("quote", some "hi")]]
        [[("title", some "Gem Glow"), ("season", some "Season 1")]] =
      .ok [("S, t, e, v, e, n", none)] := by
  constructor
  · rfl
  · rfl

theorem mem_foAux {α : Type} [DecidableEq α] (seen l : List α) (x : α)
    (hx : x ∈ foAux seen l) : x ∉ seen ∧ x ∈ l := by
  induction l generalizing seen with
  | nil => cases hx
  | cons y ys ih =>
    rw [foAux] at hx
    by_cases h : y ∈ seen
    · rw [if_pos h] at hx
      obtain ⟨h1, h2⟩ := ih seen hx
      exact ⟨h1, List.mem_cons_of_mem _ h2⟩
    · rw [if_neg h] at hx
      rcases List.mem_cons.1 hx with rfl | hx2
      · exact ⟨h, List.mem_cons_self _ _⟩
      · obtain ⟨h1, h2⟩ := ih (y :: seen) hx2
        exact ⟨fun hs => h1 (List.mem_cons_of_mem _ hs), List.mem_cons_of_mem _ h2⟩

theorem foAux_nodup {α : Type} [DecidableEq α] (seen l : List α) :
    (foAux seen l).Nodup := by
  induction l generalizing seen with
  | nil => exact List.nodup_nil
  | cons y ys ih =>
    rw [foAux]
    by_cases h : y ∈ seen
    · rw [if_pos h]
      exact ih seen
    · rw [if_neg h]
      refine List.nodup_cons.2 ⟨?_, ih (y :: seen)⟩
      intro hy
      exact (mem_foAux _ _ _ hy).1 (List.mem_cons_self _ _)

theorem foAux_pairwise_indexOf {α : Type} [DecidableEq α] (seen l : List α) :
    (foAux seen l).Pairwise (fun a b => l.indexOf a < l.indexOf b) := by
  induction l generalizing seen with
  | nil => exact List.Pairwise.nil
  | cons y ys ih =>
    rw [foAux]
    by_cases h : y ∈ seen
    · rw [if_pos h]
      refine (ih seen).imp_of_mem ?_
      intro a b ha hb hab
      have hane : y ≠ a := fun he => (mem_foAux _ _ _ ha).1 (he ▸ h)
      have hbne : y ≠ b := fun he => (mem_foAux _ _ _ hb).1 (he ▸ h)
      rw [List.indexOf_cons_ne _ hane, List.indexOf_cons_ne _ hbne]
      exact Nat.succ_lt_succ hab
    · rw [if_neg h]
      refine List.pairwise_cons.2 ⟨?_, ?_⟩
      · intro b hb
        have hbmem := mem_foAux _ _ _ hb
        have hbne : y ≠ b := fun he => hbmem.1 (he ▸ List.mem_cons_self _ _)
        rw [List.indexOf_cons_self, List.indexOf_cons_ne _ hbne]
        exact Nat.succ_pos _
      · refine (ih (y :: seen)).imp_of_mem ?_
        intro a b ha hb hab
        have hane : y ≠ a := fun he => (mem_foAux _ _ _ ha).1 (he ▸ List.mem_cons_self _ _)
        have hbne : y ≠ b := fun he => (mem_foAux _ _ _ hb).1 (he ▸ List.mem_cons_self _ _)
        rw [List.indexOf_cons_ne _ hane, List.indexOf_cons_ne _ hbne]
        exact Nat.succ_lt_succ hab

theorem foAux_congr {α : Type} [DecidableEq α] (s1 s2 l : List α)
    (h : ∀ a : α, a ∈ s1 ↔ a ∈ s2) : foAux s1 l = foAux s2 l := by
  induction l generalizing s1 s2 with
  | nil => rfl
  | cons y ys ih =>
    rw [foAux, foAux]
    by_cases hy : y ∈ s1
    · rw [if_pos hy, if_pos ((h y).1 hy)]
      exact ih s1 s2 h
    · rw [if_neg hy, if_neg (fun h2 => hy ((h y).2 h2))]
      rw [ih (y :: s1) (y :: s2) (by intro a; simp [h a])]

theorem buildDictValAux_eq (d : List String) (c : Corpus) (ts : List String)
    (acc : List (String × ℝ)) :
    buildDictValAux d c ts acc =
      acc ++ (foAux (acc.map Prod.fst) ts).map (fun t => (t, tfidfVal t d c)) := by
  induction ts generalizing acc with
  | nil => simp [buildDictValAux, foAux]
  | cons t ts ih =>
    rw [buildDictValAux, foAux]
    by_cases h : t ∈ acc.map Prod.fst
    · rw [if_pos ((lookup_isSome_iff acc t).2 h), if_pos h]
      exact ih acc
    · rw [if_neg (by simpa using (fun hs => h ((lookup_isSome_iff acc t).1 hs))), if_neg h]
      rw [ih (acc ++ [(t, tfidfVal t d c)])]
      rw [foAux_congr ((acc ++ [(t, tfidfVal t d c)]).map Prod.fst) (t :: acc.map Prod.fst)
        ts (by intro a; simp [or_comm])]
      simp

theorem buildDictionaryVal_eq (d : List String) (c : Corpus) :
    buildDictionaryVal d c = (firstOccs d).map (fun t => (t, tfidfVal t d c)) := by
  rw [buildDictionaryVal, buildDictValAux_eq]
  rfl

theorem count_documents_pos (t : String) (id : String) (tokens : List String)
    (corpus : Corpus) (hmem : (id, tokens) ∈ corpus) (ht : t ∈ tokens) :
    count_documents_with_term t corpus ≠ 0 := by
  induction corpus with
  | nil => cases hmem
  | cons p rest ih =>
    rw [count_documents_with_term]
    rcases List.mem_cons.1 hmem with rfl | h2
    · rw [if_pos ht]
      omega
    · have := ih h2
      omega

theorem calculate_idf_ok (t : String) (corpus : Corpus)
    (h : count_documents_with_term t corpus ≠ 0) :
    calculate_idf t corpus = .ok (idfVal t corpus) := by
  rw [calculate_idf, idfVal]
  simp [h]

theorem calculate_tfidf_ok (t : String) (d : List String) (corpus : Corpus)
    (h : count_documents_with_term t corpus ≠ 0) :
    calculate_tfidf t d corpus = .ok (tfidfVal t d corpus) := by
  rw [calculate_tfidf, calculate_idf_ok t corpus h, tfidfVal]
  rfl

theorem buildDictAux_ok (d : List String) (corpus : Corpus) (ts : List String)
    (acc : List (String × ℝ))
    (h : ∀ t ∈ ts, count_documents_with_term t corpus ≠ 0) :
    buildDictAux d corpus ts acc = .ok (buildDictValAux d corpus ts acc) := by
  induction ts generalizing acc with
  | nil => rfl
  | cons t ts ih =>
    rw [buildDictAux, buildDictValAux]
    by_cases hl : (acc.lookup t).isSome
    · rw [if_pos hl, if_pos hl]
      exact ih acc (fun u hu => h u (List.mem_cons_of_mem _ hu))
    · rw [if_neg hl, if_neg hl,
        calculate_tfidf_ok t d corpus (h t (List.mem_cons_self _ _))]
      exact ih _ (fun u hu => h u (List.mem_cons_of_mem _ hu))

theorem build_dictionary_ok (d : List String) (corpus : Corpus)
    (h : ∀ t ∈ d, count_documents_with_term t corpus ≠ 0) :
    build_dictionary d corpus = .ok (buildDictionaryVal d corpus) :=
  buildDictAux_ok d corpus d [] h

theorem fmsGo_ok (corpus : Corpus) (k : ℕ) (rest : Corpus)
    (h : ∀ p ∈ rest, p ∈ corpus) :
    fmsGo corpus k rest =
      .ok (rest.map (fun p => (p.1, salientTermsVal corpus k p.2))) := by
  induction rest with
  | nil => rfl
  | cons p rest ih =>
    obtain ⟨id, tokens⟩ := p
    rw [fmsGo]
    by_cases he : tokens.isEmpty
    · rw [if_pos he, ih (fun q hq => h q (List.mem_cons_of_mem _ hq))]
      have he2 : tokens = [] := by simpa using he
      subst he2
      rfl
    · rw [if_neg he]
      have hdf : ∀ t ∈ tokens, count_documents_with_term t corpus ≠ 0 :=
        fun t ht => count_documents_pos t id tokens corpus
          (h _ (List.mem_cons_self _ _)) ht
      rw [build_dictionary_ok tokens corpus hdf]
      rw [ih (fun q hq => h q (List.mem_cons_of_mem _ hq)), List.map_cons]
      simp only [salientTermsVal, if_neg he]
      rfl

theorem find_most_salient_ok (corpus : Corpus) (k : ℕ) :
    find_most_salient corpus k = .ok (findMostSalientVal corpus k) :=
  fmsGo_ok corpus k corpus (fun _ hp => hp)

theorem salientTermsVal_zero (corpus : Corpus) (tokens : List String) :
    salientTermsVal corpus 0 tokens = [] := by
  by_cases he : tokens.isEmpty
  · simp [salientTermsVal, he]
  · simp only [salientTermsVal, if_neg he, List.take_zero, List.map_nil]

theorem salientTermsVal_take (corpus : Corpus) (k : ℕ) (tokens : List String) :
    salientTermsVal corpus k tokens = (salientTermsVal corpus (k + 1) tokens).take k := by
  by_cases he : tokens.isEmpty
  · simp [salientTermsVal, he]
  · simp only [salientTermsVal, if_neg he]
    rw [List.map_take, List.map_take, List.take_take]
    congr 1
    omega

theorem dict_keys_eq (tokens : List String) (corpus : Corpus) :
    (buildDictionaryVal tokens corpus).map Prod.fst = firstOccs tokens := by
  rw [buildDictionaryVal_eq, List.map_map]
  exact List.map_id _

theorem mem_dict_snd (tokens : List String) (corpus : Corpus) (p : String × ℝ)
    (hp : p ∈ buildDictionaryVal tokens corpus) :
    p.2 = tfidfVal p.1 tokens corpus := by
  rw [buildDictionaryVal_eq] at hp
  obtain ⟨t, ht, rfl⟩ := List.mem_map.1 hp
  rfl

theorem salient_nodup (corpus : Corpus) (k : ℕ) (tokens : List String) :
    (salientTermsVal corpus k tokens).Nodup := by
  by_cases he : tokens.isEmpty
  · simp [salientTermsVal, he]
  · simp only [salientTermsVal, if_neg he]
    have hperm : ((sort_by_count (buildDictionaryVal tokens corpus)).map Prod.fst).Perm
        ((buildDictionaryVal tokens corpus).map Prod.fst) :=
      (sort_by_count_perm _).map _
    have hnd : ((sort_by_count (buildDictionaryVal tokens corpus)).map Prod.fst).Nodup :=
      hperm.nodup_iff.2 (dict_keys_eq tokens corpus ▸ foAux_nodup [] tokens)
    rw [List.map_take]
    exact List.Nodup.sublist (List.take_sublist _ _) hnd

theorem salient_subset (corpus : Corpus) (k : ℕ) (tokens : List String)
    (t : String) (ht : t ∈ salientTermsVal corpus k tokens) : t ∈ tokens := by
  by_cases he : tokens.isEmpty
  · simp [salientTermsVal, he] at ht
  · simp only [salientTermsVal, if_neg he] at ht
    obtain ⟨p, hp, rfl⟩ := List.mem_map.1 ht
    have hps : p ∈ sort_by_count (buildDictionaryVal tokens corpus) :=
      List.mem_of_mem_take hp
    have hpd : p ∈ buildDictionaryVal tokens corpus :=
      (sort_by_count_perm _).mem_iff.1 hps
    rw [buildDictionaryVal_eq] at hpd
    obtain ⟨u, hu, rfl⟩ := List.mem_map.1 hpd
    exact (mem_foAux [] tokens u hu).2

/-- C6: with `k = 0` every document of the corpus is mapped to the empty term
list, and a document with zero tokens is mapped to the empty term list for
every `k`, with no error raised. -/
theorem find_most_salient_boundary :
    ∀ corpus : Corpus,
      find_most_salient corpus 0 =
        .ok (corpus.map (fun p => (p.1, ([] : List String)))) ∧
      ∀ (k : ℕ) (id : String), (id, ([] : List String)) ∈ corpus →
        ∃ out, find_most_salient corpus k = .ok out ∧
          (id, ([] : List String)) ∈ out := by
  intro corpus
  constructor
  · rw [find_most_salient_ok]
    have hf : (fun (p : String × List String) => (p.1, salientTermsVal corpus 0 p.2)) =
        fun p => (p.1, ([] : List String)) :=
      funext fun p => by rw [salientTermsVal_zero]
    rw [findMostSalientVal, hf]
  · intro k id hmem
    refine ⟨findMostSalientVal corpus k, find_most_salient_ok corpus k, ?_⟩
    have h2 : (id, salientTermsVal corpus k []) ∈ findMostSalientVal corpus k :=
      List.mem_map_of_mem _ hmem
    simpa [salientTermsVal] using h2

/-- Witness for C6 at the one-document corpus containing an empty document:
`find_most_salient` with `k = 2` succeeds and yields the empty term list. -/
theorem find_most_salient_boundary_witness :
    (("d", ([] : List String)) ∈ ([("d", [])] : Corpus)) ∧
      ∃ out, find_most_salient [("d", [])] 2 = .ok out ∧
        ("d", ([] : List String)) ∈ out :=
  ⟨by simp, (find_most_salient_boundary [("d", [])]).2 2 "d" (by simp)⟩

/-- C8: for every corpus and k, the result for limit `k` is, document by
document, exactly the first `k` elements of the result for limit `k + 1`. -/
theorem find_most_salient_first_k :
    ∀ (corpus : Corpus) (k : ℕ),
      find_most_salient corpus k =
        (find_most_salient corpus (k + 1)).map
          (fun out => out.map (fun p => (p.1, p.2.take k))) := by
  intro corpus k
  rw [find_most_salient_ok, find_most_salient_ok]
  have hval : findMostSalientVal corpus k =
      List.map (fun p => (p.1, p.2.take k)) (findMostSalientVal corpus (k + 1)) := by
    rw [findMostSalientVal, findMostSalientVal, List.map_map]
    have hf : ((fun (p : String × List String) => (p.1, p.2.take k)) ∘
        (fun (p : String × List String) =>
          (p.1, salientTermsVal corpus (k + 1) p.2))) =
        fun p => (p.1, salientTermsVal corpus k p.2) :=
      funext fun p => by
        show (p.1, (salientTermsVal corpus (k + 1) p.2).take k) = _
        rw [← salientTermsVal_take]
    rw [hf]
  rw [hval]
  rfl

/-- C9: the output of `find_most_salient` lists exactly the corpus's document
identifiers in the corpus's iteration order, and every document's term list
is duplicate-free and draws only on terms occurring in that document. -/
theorem find_most_salient_invariants :
    ∀ (corpus : Corpus) (k : ℕ),
      ∃ out, find_most_salient corpus k = .ok out ∧
        out.map Prod.fst = corpus.map Prod.fst ∧
        ∀ (id : String) (terms : List String), (id, terms) ∈ out →
          terms.Nodup ∧ ∀ t ∈ terms, ∃ tokens, (id, tokens) ∈ corpus ∧ t ∈ tokens := by
  intro corpus k
  refine ⟨findMostSalientVal corpus k, find_most_salient_ok corpus k, ?_, ?_⟩
  · rw [findMostSalientVal, List.map_map]
    rfl
  · intro id terms hmem
    obtain ⟨p, hp, heq⟩ := List.mem_map.1 hmem
    have hid : p.1 = id := congrArg Prod.fst heq
    have hterms : salientTermsVal corpus k p.2 = terms := congrArg Prod.snd heq
    constructor
    · exact hterms ▸ salient_nodup corpus k p.2
    · intro t ht
      refine ⟨p.2, ?_, salient_subset corpus k p.2 t (hterms ▸ ht)⟩
      rw [← hid]
      exact hp

/-- Witness for C9 at a small concrete corpus. -/
theorem find_most_salient_invariants_witness :
    ∃ out, find_most_salient [("d", ["a"])] 1 = .ok out ∧
      out.map Prod.fst = ([("d", ["a"])] : Corpus).map Prod.fst ∧
      ∀ (id : String) (terms : List String), (id, terms) ∈ out →
        terms.Nodup ∧ ∀ t ∈ terms,
          ∃ tokens, (id, tokens) ∈ ([("d", ["a"])] : Corpus) ∧ t ∈ tokens :=
  find_most_salient_invariants [("d", ["a"])] 1

/-- C3: for every corpus and k, each document's entry in the output is a list
of at most `k` terms, ordered by weakly decreasing tf-idf score, with any two
terms of equal score ordered by the position of their first occurrence in the
document (the stable order of the sort). -/
theorem find_most_salient_sorted :
    ∀ (corpus : Corpus) (k : ℕ) (id : String) (tokens : List String),
      (id, tokens) ∈ corpus →
      ∃ out terms, find_most_salient corpus k = .ok out ∧ (id, terms) ∈ out ∧
        terms.length ≤ k ∧
        terms.Pairwise (fun a b =>
          tfidfVal b tokens corpus ≤ tfidfVal a tokens corpus ∧
          (tfidfVal a tokens corpus ≤ tfidfVal b tokens corpus →
            tokens.indexOf a < tokens.indexOf b)) := by
  intro corpus k id tokens hmem
  refine ⟨findMostSalientVal corpus k, salientTermsVal corpus k tokens,
    find_most_salient_ok corpus k, List.mem_map_of_mem _ hmem, ?_, ?_⟩
  · by_cases he : tokens.isEmpty
    · simp [salientTermsVal, he]
    · simp only [salientTermsVal, if_neg he]
      rw [List.length_map, List.length_take]
      exact min_le_left _ _
  · by_cases he : tokens.isEmpty
    · simp [salientTermsVal, he]
    · simp only [salientTermsVal, if_neg he]
      have hQ : (buildDictionaryVal tokens corpus).Pairwise
          (fun p q => tokens.indexOf p.1 < tokens.indexOf q.1) := by
        rw [buildDictionaryVal_eq]
        exact List.pairwise_map.2 (foAux_pairwise_indexOf [] tokens)
      have hS := sort_by_count_stable _ (buildDictionaryVal tokens corpus) hQ
      have hSk : ((sort_by_count (buildDictionaryVal tokens corpus)).take k).Pairwise
          (fun (a b : String × ℝ) => b.2 ≤ a.2 ∧
            (a.2 ≤ b.2 → tokens.indexOf a.1 < tokens.indexOf b.1)) :=
        List.Pairwise.sublist (List.take_sublist _ _) hS
      refine List.pairwise_map.2 (hSk.imp_of_mem ?_)
      intro a b ha hb hab
      have hasnd : a.2 = tfidfVal a.1 tokens corpus :=
        mem_dict_snd tokens corpus a
          ((sort_by_count_perm _).mem_iff.1 (List.mem_of_mem_take ha))
      have hbsnd : b.2 = tfidfVal b.1 tokens corpus :=
        mem_dict_snd tokens corpus b
          ((sort_by_count_perm _).mem_iff.1 (List.mem_of_mem_take hb))
      constructor
      · rw [← hasnd, ← hbsnd]
        exact hab.1
      · intro hle
        exact hab.2 (by rw [hasnd, hbsnd]; exact hle)

/-- Witness for C3 at the one-document corpus `{"d": ["a"]}` with `k = 1`. -/
theorem find_most_salient_sorted_witness :
    (("d", ["a"]) ∈ ([("d", ["a"])] : Corpus)) ∧
      ∃ out terms, find_most_salient [("d", ["a"])] 1 = .ok out ∧
        ("d", terms) ∈ out ∧ terms.length ≤ 1 ∧
        terms.Pairwise (fun a b =>
          tfidfVal b ["a"] [("d", ["a"])] ≤ tfidfVal a ["a"] [("d", ["a"])] ∧
          (tfidfVal a ["a"] [("d", ["a"])] ≤ tfidfVal b ["a"] [("d", ["a"])] →
            ["a"].indexOf a < ["a"].indexOf b)) :=
  ⟨by simp, find_most_salient_sorted [("d", ["a"])] 1 "d" ["a"] (by simp)⟩
